import Mathlib

/-!
Verification of the pdf-to-json structure-inference pipeline
(`src/pdf_to_json.py`): a shallow embedding of the `PDFParser`,
`HTMLToJsonConverter` and `MetadataEnhancedJsonConverter` classes, followed
by theorems settling the specification's claims about them.

Modelling conventions:
* Python strings are modelled as `List Char` (`Str`); Python string
  concatenation is list append.
* Span sizes (Python floats, compared only for equality/order) are modelled
  as rationals; colors (Python ints) as integers.
* The granular style identifier string `f"{size}_{font}_{color}"` is
  injective in the triple (the float and int reprs contain no underscore,
  so the three components can be recovered from the string), hence maps
  keyed by identifier strings are modelled as maps keyed by the
  (size, font, color) triple itself.
* Python dicts/sets with insertion-order iteration are modelled as lists in
  first-insertion order; `sorted` is modelled by a stable insertion sort.
* `raise` is modelled with `Except`.
-/

/-- Python strings, modelled as their list of code points. -/
abbrev Str := List Char

/-- A text span as delivered by the extraction library: `span['text']`,
`span['size']`, `span['font']`, `span['color']`. -/
structure Span where
  text : Str
  size : ℚ
  font : Str
  color : ℤ
deriving DecidableEq

/-- One line of a block: `line["spans"]`. -/
structure Line where
  spans : List Span
deriving DecidableEq

/-- One block of a page: `block['type']` (0 = text) and `block["lines"]`. -/
structure Block where
  btype : ℕ
  lines : List Line
deriving DecidableEq

/-- A page: `page.number` (zero-based) and its blocks from
`page.get_text("dict")["blocks"]`. -/
structure Page where
  number : ℕ
  blocks : List Block
deriving DecidableEq

/-- A granular style triple, the content of the identifier string
`f"{size}_{font}_{color}"` used by `_create_identifier` (granularity on)
and by `_process_block`. -/
structure Style where
  size : ℚ
  font : Str
  color : ℤ
deriving DecidableEq

/-- The style triple of a span (the granular identifier). -/
def spanStyle (s : Span) : Style := ⟨s.size, s.font, s.color⟩

/-- A structured section as built by `_process_page_content`:
`{"title": ..., "text": ..., "page": ...}`. -/
structure Section where
  title : Str
  text : Str
  page : ℕ
deriving DecidableEq

/-- A page record of `process_document`'s output:
`{"page": page.number, "content": headers_paragraphs}`. -/
structure PageData where
  page : ℕ
  content : List (List Str)
deriving DecidableEq

/-! ## Structure Repair Pass (`HTMLToJsonConverter`) -/

/-- Embeds `HTMLToJsonConverter._merge_empty_structured_data`: scan left to right;
when two adjacent entries both have empty `text`, replace them by one entry
`{title = first.title, text = second.title, page = first.page}` and skip
the consumed pair (the `skip_next` flag). -/
def mergeEmpty : List Section → List Section
  | [] => []
  | [a] => [a]
  | a :: b :: rest =>
    if a.text = [] ∧ b.text = [] then
      ⟨a.title, b.title, a.page⟩ :: mergeEmpty rest
    else
      a :: mergeEmpty (b :: rest)

/-- Embeds `HTMLToJsonConverter._remove_duplicates`, generalized over the `seen`
set (modelled as a list, membership = Python set membership on the
`(title, text, page)` tuple). -/
def removeDupsAux (seen : List Section) : List Section → List Section
  | [] => []
  | s :: rest =>
    if s ∈ seen then removeDupsAux seen rest
    else s :: removeDupsAux (s :: seen) rest

/-- Embeds `HTMLToJsonConverter._remove_duplicates`: keep the first occurrence of
each `(title, text, page)` tuple, in order. -/
def removeDups (l : List Section) : List Section := removeDupsAux [] l

/-- The body of `HTMLToJsonConverter._process_titles`'s
`while i < len(data) - 1` loop, with the section at the cursor held in
`cur` and the settled prefix already emitted.  When `cur`'s text is empty,
its title (plus one space) is prepended onto the next section's title,
`cur` is deleted, and the merged section is re-examined at the same
cursor; otherwise the cursor advances.  The loop stops when the cursor is
on the last entry. -/
def ptGo (cur : Section) : List Section → List Section
  | [] => [cur]
  | b :: rest =>
    if cur.text = [] then ptGo ⟨cur.title ++ ' ' :: b.title, b.text, b.page⟩ rest
    else cur :: ptGo b rest

/-- Embeds `HTMLToJsonConverter._process_titles`: scan left to right, folding
every empty-text section into its successor's title. -/
def processTitles : List Section → List Section
  | [] => []
  | a :: rest => ptGo a rest

/-- The three-stage repair of `process_list_to_json` (after the per-page
structuring): `_merge_empty_structured_data`, then `_remove_duplicates`,
then `_process_titles`, in that order. -/
def repairPass (l : List Section) : List Section :=
  processTitles (removeDups (mergeEmpty l))

/-- A section list of which every entry except possibly the last has
non-empty `text`. -/
def GoodTexts : List Section → Prop
  | a :: b :: rest => a.text ≠ [] ∧ GoodTexts (b :: rest)
  | _ => True

/-- The empty-pair merge relation, transcribed from the claim: scanning
left to right, an adjacent pair with both texts empty is replaced by the
single merged section and the consumed pair is skipped; any other head
section is kept unchanged. -/
inductive MergeRel : List Section → List Section → Prop where
  | nil : MergeRel [] []
  | pair (a b : Section) (rest out : List Section) :
      a.text = [] → b.text = [] → MergeRel rest out →
      MergeRel (a :: b :: rest) (⟨a.title, b.title, a.page⟩ :: out)
  | keep (a : Section) (rest out : List Section) :
      (∀ b t, rest = b :: t → ¬(a.text = [] ∧ b.text = [])) →
      MergeRel rest out → MergeRel (a :: rest) (a :: out)

lemma goodTexts_cons (a : Section) (l : List Section)
    (ha : a.text ≠ []) (hl : GoodTexts l) : GoodTexts (a :: l) := by
  cases l with
  | nil => trivial
  | cons b rest => exact ⟨ha, hl⟩

lemma goodTexts_ptGo : ∀ (l : List Section) (cur : Section), GoodTexts (ptGo cur l)
  | [], _ => trivial
  | b :: rest, cur => by
    rw [ptGo]
    split
    · exact goodTexts_ptGo rest _
    · exact goodTexts_cons cur _ (by assumption) (goodTexts_ptGo rest b)

lemma goodTexts_processTitles (l : List Section) :
    GoodTexts (processTitles l) := by
  cases l with
  | nil => trivial
  | cons a rest => exact goodTexts_ptGo rest a

lemma ptGo_fixed : ∀ (l : List Section) (cur : Section), GoodTexts (cur :: l) →
    ptGo cur l = cur :: l
  | [], _, _ => rfl
  | b :: rest, cur, h => by
    rw [ptGo, if_neg h.1]
    exact congrArg (cur :: ·) (ptGo_fixed rest b h.2)

lemma processTitles_fixed (l : List Section) (h : GoodTexts l) : processTitles l = l := by
  cases l with
  | nil => rfl
  | cons a rest => exact ptGo_fixed rest a h

lemma mergeEmpty_fixed : ∀ l : List Section, GoodTexts l → mergeEmpty l = l
  | [], _ => rfl
  | [_], _ => rfl
  | a :: b :: rest, h => by
    rw [mergeEmpty, if_neg (fun hc => h.1 hc.1)]
    exact congrArg (a :: ·) (mergeEmpty_fixed (b :: rest) h.2)

lemma not_mem_seen_of_mem_removeDupsAux :
    ∀ (l seen : List Section) (s : Section), s ∈ removeDupsAux seen l → s ∉ seen
  | [], _, _, h => absurd h (List.not_mem_nil _)
  | x :: rest, seen, s, h => by
    rw [removeDupsAux] at h
    split at h
    · exact not_mem_seen_of_mem_removeDupsAux rest seen s h
    · rcases List.mem_cons.1 h with rfl | hmem
      · assumption
      · have := not_mem_seen_of_mem_removeDupsAux rest (x :: seen) s hmem
        exact fun hs => this (List.mem_cons_of_mem _ hs)

lemma nodup_removeDupsAux : ∀ (l seen : List Section), (removeDupsAux seen l).Nodup
  | [], _ => List.nodup_nil
  | x :: rest, seen => by
    rw [removeDupsAux]
    split
    · exact nodup_removeDupsAux rest seen
    · refine List.nodup_cons.2 ⟨fun hx => ?_, nodup_removeDupsAux rest (x :: seen)⟩
      exact not_mem_seen_of_mem_removeDupsAux rest (x :: seen) x hx (List.mem_cons_self _ _)

lemma removeDupsAux_fixed :
    ∀ (l seen : List Section), l.Nodup → (∀ s ∈ l, s ∉ seen) → removeDupsAux seen l = l
  | [], _, _, _ => rfl
  | x :: rest, seen, hnd, hs => by
    rw [removeDupsAux, if_neg (hs x (List.mem_cons_self _ _))]
    refine congrArg (x :: ·) (removeDupsAux_fixed rest (x :: seen) (List.nodup_cons.1 hnd).2 ?_)
    intro s hmem
    rcases List.nodup_cons.1 hnd with ⟨hx, _⟩
    intro hin
    rcases List.mem_cons.1 hin with rfl | hin
    · exact hx hmem
    · exact hs s (List.mem_cons_of_mem _ hmem) hin

/-- Claim C4 example input from §8 of the spec. -/
def danglingEx : List Section :=
  [⟨"Part A".toList, [], 1⟩, ⟨"Part B".toList, "Body".toList, 1⟩]

/-- C4: the dangling-title concatenation merges an empty-text section into
its successor's title (joined by one space, deleting the empty section and
re-examining the merged position), keeps non-empty sections, maps the §8
example to its expected output, and its output has non-empty `text`
everywhere except possibly the last entry. -/
theorem processTitles_dangling_title_concatenation :
    processTitles danglingEx = [⟨"Part A Part B".toList, "Body".toList, 1⟩]
    ∧ (∀ a b rest, a.text = [] →
        processTitles (a :: b :: rest) =
          processTitles (⟨a.title ++ ' ' :: b.title, b.text, b.page⟩ :: rest))
    ∧ (∀ a b rest, a.text ≠ [] →
        processTitles (a :: b :: rest) = a :: processTitles (b :: rest))
    ∧ (∀ l, GoodTexts (processTitles l)) := by
  refine ⟨by decide, ?_, ?_, goodTexts_processTitles⟩
  · intro a b rest h
    show ptGo a (b :: rest) = ptGo _ rest
    rw [ptGo, if_pos h]
  · intro a b rest h
    show ptGo a (b :: rest) = a :: ptGo b rest
    rw [ptGo, if_neg h]

/-- Witness for C4: the merge step of `processTitles` at a concrete
empty-text section. -/
theorem processTitles_dangling_title_concatenation_witness :
    processTitles [⟨"Part".toList, [], 2⟩, ⟨"Q".toList, "t".toList, 2⟩] =
      processTitles [⟨"Part Q".toList, "t".toList, 2⟩] :=
  processTitles_dangling_title_concatenation.2.1
    ⟨"Part".toList, [], 2⟩ ⟨"Q".toList, "t".toList, 2⟩ [] rfl

/-- C5: `_merge_empty_structured_data` realizes the claim's left-to-right
empty-pair merge relation: each adjacent all-empty-text pair becomes the
single merged section with the pair consumed, every other section is kept
unchanged in order. -/
theorem mergeEmpty_refines_claim : ∀ l : List Section, MergeRel l (mergeEmpty l) := by
  intro l
  induction l using mergeEmpty.induct with
  | case1 => exact MergeRel.nil
  | case2 a =>
    rw [mergeEmpty]
    exact MergeRel.keep a [] [] (by simp) MergeRel.nil
  | case3 a b rest h ih =>
    rw [mergeEmpty, if_pos h]
    exact MergeRel.pair a b rest _ h.1 h.2 ih
  | case4 a b rest h ih =>
    rw [mergeEmpty, if_neg h]
    refine MergeRel.keep a (b :: rest) _ ?_ ih
    intro b' t' heq hc
    cases heq
    exact h hc

/-- A section list on which the full repair pass emits two identical
sections: the dangling-title stage merges the first (empty-text) section
into the second, producing a copy of the third. -/
def dupAfterRepair : List Section :=
  [⟨"X".toList, [], 1⟩, ⟨"Y".toList, "T".toList, 1⟩, ⟨"X Y".toList, "T".toList, 1⟩]

/-- Counterexample for C6: after the full three-stage repair pass the
output can contain two attribute-wise identical sections, because the
dangling-title concatenation (which runs after duplicate removal) can
recreate a duplicate. -/
theorem repairPass_not_duplicate_free : ¬ (repairPass dupAfterRepair).Nodup := by
  decide

/-- C6 (amended): after the first two stages of the repair pass
(empty-pair merge, then exact-duplicate removal) no two sections are
attribute-wise identical; the subsequent dangling-title concatenation can
reintroduce duplicates. -/
theorem mergeEmpty_removeDups_duplicate_free (l : List Section) :
    (removeDups (mergeEmpty l)).Nodup :=
  nodup_removeDupsAux (mergeEmpty l) []

/-- Counterexample for C7: the repair pass is not idempotent — on
`dupAfterRepair` the first pass leaves a duplicate pair that the second
pass's duplicate removal then deletes. -/
theorem repairPass_not_idempotent :
    repairPass (repairPass dupAfterRepair) ≠ repairPass dupAfterRepair := by
  decide

/-- C7 (amended): the repair pass is idempotent on every input whose
repaired output is duplicate-free (equivalently, whenever the final
dangling-title stage does not reintroduce a duplicate): re-running the
three stages changes nothing. -/
theorem repairPass_idempotent_of_nodup (l : List Section)
    (h : (repairPass l).Nodup) : repairPass (repairPass l) = repairPass l := by
  have hg : GoodTexts (repairPass l) := goodTexts_processTitles _
  show processTitles (removeDups (mergeEmpty (repairPass l))) = repairPass l
  rw [mergeEmpty_fixed _ hg]
  rw [show removeDups (repairPass l) = repairPass l from
    removeDupsAux_fixed _ [] h (fun s _ => List.not_mem_nil s)]
  exact processTitles_fixed _ hg

/-- Witness for C7 (amended): concrete idempotence via
`repairPass_idempotent_of_nodup`. -/
theorem repairPass_idempotent_of_nodup_witness :
    repairPass (repairPass [⟨"A".toList, "x".toList, 0⟩]) =
      repairPass [⟨"A".toList, "x".toList, 0⟩] :=
  repairPass_idempotent_of_nodup [⟨"A".toList, "x".toList, 0⟩] (by decide)

/-! ## Tag Assigner (`PDFParser._determine_tag`, `_create_size_tag_map`) -/

/-- Python string `<` on two strings: lexicographic by code point. -/
def strLt : Str → Str → Bool
  | [], [] => false
  | [], _ :: _ => true
  | _ :: _, [] => false
  | c :: cs, d :: ds => if c < d then true else if c = d then strLt cs ds else false

/-- Strict order on styles for the key `(-size, font, color)` used by
`sorted(unique_styles, key=lambda x: (-x[0], x[1], x[2]))`: size
descending, then font ascending, then color ascending. -/
def styleLtB (a b : Style) : Bool :=
  if a.size = b.size then
    if a.font = b.font then decide (a.color < b.color)
    else strLt a.font b.font
  else decide (b.size < a.size)

/-- Stable insertion of one element: it goes before the first strictly
greater element, hence after all elements equal to it. -/
def insertStable (lt : α → α → Bool) (x : α) : List α → List α
  | [] => [x]
  | y :: ys => if lt x y then x :: y :: ys else y :: insertStable lt x ys

/-- Python `sorted` with a strict comparison `lt`, modelled as a stable
insertion sort: elements are inserted in encounter order and tie-broken by
position. -/
def isort (lt : α → α → Bool) (l : List α) : List α :=
  l.foldl (fun acc x => insertStable lt x acc) []

/-- First-seen deduplication, the key/iteration order of a Python dict or
the content of a Python set built by insertion. -/
def dedupFirst (l : List Style) : List Style :=
  l.foldl (fun acc s => if s ∈ acc then acc else acc ++ [s]) []

/-- The tag string `'<p>'`. -/
def pTag : Str := ['<', 'p', '>']

/-- The tag string `f'<h{idx}>'`. -/
def hTag (idx : ℕ) : Str := '<' :: 'h' :: (Nat.repr idx).toList ++ ['>']

/-- Embeds `PDFParser._determine_tag`: `'<p>'` for the primary triple, `'<h{i}>'`
(incrementing the header index) for a larger size or an equal size with a
different font or color, `'<p>'` otherwise. -/
def determineTag (size : ℚ) (font : Str) (color : ℤ) (primary : Style)
    (headerIdx subheaderIdx : ℕ) : Str × ℕ × ℕ :=
  if size = primary.size ∧ font = primary.font ∧ color = primary.color then
    (pTag, headerIdx, subheaderIdx)
  else if primary.size < size ∨
      (size = primary.size ∧ (font ≠ primary.font ∨ color ≠ primary.color)) then
    (hTag headerIdx, headerIdx + 1, subheaderIdx)
  else
    (pTag, headerIdx, subheaderIdx)

/-- The `for style in sorted_unique_styles` loop of
`_create_size_tag_map`, threading the header and subheader indices. -/
def assignTags (primary : Style) : ℕ → ℕ → List Style → List (Style × Str)
  | _, _, [] => []
  | hIdx, sIdx, s :: rest =>
    let r := determineTag s.size s.font s.color primary hIdx sIdx
    (s, r.1) :: assignTags primary r.2.1 r.2.2 rest

/-- The distinct styles of the page sorted by size descending, font
ascending, color ascending (`sorted_unique_styles`). -/
def sortedStyles (styles : List Style) : List Style :=
  isort styleLtB (dedupFirst styles)

/-- Embeds `PDFParser._create_size_tag_map`: the primary style is the style of
the most frequent identifier (`styles[font_counts[0][0]]`, the head of the
descending-sorted count list); each distinct style, in sorted order, is
assigned its tag.  Identifier strings are injective in the style triple,
so the map is keyed by the triple. -/
def createSizeTagMap (fontCounts : List (Style × ℕ)) (styles : List Style) :
    List (Style × Str) :=
  match fontCounts with
  | [] => []
  | (p, _) :: _ => assignTags p 1 1 (sortedStyles styles)

/-- Dictionary lookup `size_tag_map[identifier]` / `.get(identifier)`. -/
def lookupTag (m : List (Style × Str)) (s : Style) : Option Str :=
  (m.find? (fun e => decide (e.1 = s))).map (·.2)

/-- Whether a style takes the heading branch of `_determine_tag` relative
to the primary style. -/
def qualifiesB (primary s : Style) : Bool :=
  decide (¬(s.size = primary.size ∧ s.font = primary.font ∧ s.color = primary.color)
    ∧ (primary.size < s.size ∨
        (s.size = primary.size ∧ (s.font ≠ primary.font ∨ s.color ≠ primary.color))))

/-- Modelled from the claim's words: the tag C3 predicts for style `s` —
`p` for the dominant triple, `h{level}` with `level` = 1 + the number of
qualifying styles encountered before `s` in the sorted pass for a strictly
larger size or an equal size with different font or color, and `p` for a
strictly smaller size. -/
def c3Tag (p : Style) (styles : List Style) (s : Style) : Str :=
  if s = p then pTag
  else if qualifiesB p s then
    hTag (1 + ((sortedStyles styles).takeWhile (fun t => decide (t ≠ s))).countP (qualifiesB p))
  else pTag

lemma style_eq_iff (s p : Style) :
    s = p ↔ (s.size = p.size ∧ s.font = p.font ∧ s.color = p.color) := by
  cases s; cases p; simp [Style.mk.injEq]

lemma qualifiesB_iff (p s : Style) : qualifiesB p s = true ↔
    (¬(s.size = p.size ∧ s.font = p.font ∧ s.color = p.color) ∧
      (p.size < s.size ∨
        (s.size = p.size ∧ (s.font ≠ p.font ∨ s.color ≠ p.color)))) := by
  simp only [qualifiesB, decide_eq_true_eq]

lemma lookupTag_cons_self (s : Style) (t : Str) (rest : List (Style × Str)) :
    lookupTag ((s, t) :: rest) s = some t := by
  rw [lookupTag, List.find?_cons_of_pos _ (by simp)]
  rfl

lemma lookupTag_cons_ne (u s : Style) (t : Str) (rest : List (Style × Str))
    (h : u ≠ s) : lookupTag ((u, t) :: rest) s = lookupTag rest s := by
  rw [lookupTag, List.find?_cons_of_neg _ (by simpa using h)]
  rfl

lemma determineTag_fst (s p : Style) (hIdx sIdx : ℕ) :
    (determineTag s.size s.font s.color p hIdx sIdx).1 =
      if s = p then pTag else if qualifiesB p s then hTag hIdx else pTag := by
  by_cases h1 : s.size = p.size ∧ s.font = p.font ∧ s.color = p.color
  · rw [determineTag, if_pos h1, if_pos ((style_eq_iff s p).2 h1)]
  · rw [determineTag, if_neg h1, if_neg (fun h => h1 ((style_eq_iff s p).1 h))]
    by_cases h2 : p.size < s.size ∨
        (s.size = p.size ∧ (s.font ≠ p.font ∨ s.color ≠ p.color))
    · rw [if_pos h2, if_pos ((qualifiesB_iff p s).2 ⟨h1, h2⟩)]
    · rw [if_neg h2, if_neg (fun h => h2 ((qualifiesB_iff p s).1 h).2)]

lemma determineTag_hIdx (s p : Style) (hIdx sIdx : ℕ) :
    (determineTag s.size s.font s.color p hIdx sIdx).2.1 =
      if qualifiesB p s then hIdx + 1 else hIdx := by
  by_cases h1 : s.size = p.size ∧ s.font = p.font ∧ s.color = p.color
  · rw [determineTag, if_pos h1,
      if_neg (fun h => ((qualifiesB_iff p s).1 h).1 h1)]
  · rw [determineTag, if_neg h1]
    by_cases h2 : p.size < s.size ∨
        (s.size = p.size ∧ (s.font ≠ p.font ∨ s.color ≠ p.color))
    · rw [if_pos h2, if_pos ((qualifiesB_iff p s).2 ⟨h1, h2⟩)]
    · rw [if_neg h2, if_neg (fun h => h2 ((qualifiesB_iff p s).1 h).2)]

lemma assignTags_lookup (p : Style) :
    ∀ (l : List Style) (hIdx sIdx : ℕ) (s : Style), s ∈ l →
      lookupTag (assignTags p hIdx sIdx l) s =
        some (if s = p then pTag
              else if qualifiesB p s then
                hTag (hIdx + (l.takeWhile (fun u => decide (u ≠ s))).countP (qualifiesB p))
              else pTag)
  | [], _, _, _, hmem => absurd hmem (List.not_mem_nil _)
  | t :: rest, hIdx, sIdx, s, hmem => by
    by_cases hts : t = s
    · subst hts
      rw [assignTags, lookupTag_cons_self, determineTag_fst,
        List.takeWhile_cons_of_neg (by simp)]
      simp
    · have hmem' : s ∈ rest := by
        rcases List.mem_cons.1 hmem with rfl | h
        · exact absurd rfl hts
        · exact h
      rw [assignTags, lookupTag_cons_ne t s _ _ hts,
        assignTags_lookup p rest _ _ s hmem',
        List.takeWhile_cons_of_pos (by simpa using hts),
        List.countP_cons, determineTag_hIdx]
      by_cases hq : qualifiesB p t = true
      · rw [if_pos hq, if_pos hq]
        have harith : (hIdx + 1) +
            (rest.takeWhile (fun u => decide (u ≠ s))).countP (qualifiesB p) =
            hIdx +
            ((rest.takeWhile (fun u => decide (u ≠ s))).countP (qualifiesB p) + 1) := by
          omega
        rw [harith]
      · rw [if_neg hq, if_neg hq]
        simp

/-- C3: for every page catalog (descending-sorted count list headed by the
dominant identifier, plus the style table), the TagMap maps the dominant
triple to `p`, any style with strictly greater size — or equal size and
different font or color — to `h{level}` with level assigned by encounter
order starting at 1 over the styles sorted by size descending / font
ascending / color ascending, and every strictly smaller style to `p`. -/
theorem tagAssigner_tagmap_characterization
    (p : Style) (n : ℕ) (fcRest : List (Style × ℕ)) (styles : List Style)
    (s : Style) (hmem : s ∈ sortedStyles styles) :
    lookupTag (createSizeTagMap ((p, n) :: fcRest) styles) s = some (c3Tag p styles s) := by
  rw [createSizeTagMap]
  rw [assignTags_lookup p (sortedStyles styles) 1 1 s hmem]
  rw [c3Tag]

/-- Witness for C3: a two-style catalog in which the larger non-dominant
style is tagged `h1` as `c3Tag` predicts. -/
theorem tagAssigner_tagmap_characterization_witness :
    lookupTag
        (createSizeTagMap [(⟨12, "F".toList, 0⟩, 5)]
          [⟨12, "F".toList, 0⟩, ⟨14, "F".toList, 0⟩])
        ⟨14, "F".toList, 0⟩ =
      some (c3Tag ⟨12, "F".toList, 0⟩
        [⟨12, "F".toList, 0⟩, ⟨14, "F".toList, 0⟩] ⟨14, "F".toList, 0⟩) :=
  tagAssigner_tagmap_characterization ⟨12, "F".toList, 0⟩ 5 []
    [⟨12, "F".toList, 0⟩, ⟨14, "F".toList, 0⟩] ⟨14, "F".toList, 0⟩ (by decide)

/-! ## Block Segmenter (`PDFParser._process_block` and helpers) -/

/-- Truthiness of `span['text'].strip()`: the text contains at least one
non-whitespace character. -/
def hasContent (t : Str) : Bool := t.any (fun c => !c.isWhitespace)

/-- Embeds `PDFParser._get_closing_tag`: extract the text between the first `<`
and the first following `>` of the opening tag and wrap it as `</...>`
(`opening_tag.split('<', 1)[1].split('>', 1)[0]`). -/
def getClosingTag (t : Str) : Str :=
  '<' :: '/' :: ((t.dropWhile (· ≠ '<')).drop 1).takeWhile (· ≠ '>') ++ ['>']

/-- Embeds `size_tag_map.get(identifier, "")`. -/
def openingTagOf (m : List (Style × Str)) (id : Style) : Str :=
  (lookupTag m id).getD []

/-- The closing tag for an identifier's opening tag, empty when the
identifier is not in the map. -/
def closeTagOf (m : List (Style × Str)) (id : Style) : Str :=
  match lookupTag m id with
  | some t => getClosingTag t
  | none => []

/-- Embeds `if previous_identifier in size_tag_map: block_string +=
self._get_closing_tag(size_tag_map[previous_identifier])`. -/
def closeIfTagged (m : List (Style × Str)) (id : Style) (cur : Str) : Str :=
  match lookupTag m id with
  | some t => cur ++ getClosingTag t
  | none => cur

/-- The same closing step guarded by the `Option` previous identifier
(`previous_identifier` is `None` before the first visible span). -/
def closePrev (m : List (Style × Str)) (prev : Option Style) (cur : Str) : Str :=
  match prev with
  | some p => closeIfTagged m p cur
  | none => cur

/-- Embeds `if block_string: block_strings.append(block_string)`. -/
def flushClosed (strings : List Str) (closed : Str) : List Str :=
  if closed ≠ [] then strings ++ [closed] else strings

/-- Embeds `PDFParser._start_new_block`, embedded literally: its local
`previous_identifier` is initialized to `None` and never set, so the
closing-tag branch is dead and the result is the opening tag (empty if the
identifier is unmapped) followed by the span's raw text. -/
def startNewBlock (sp : Span) (id : Style) (m : List (Style × Str)) : Str :=
  let previousIdentifier : Option Style := none
  let closingTag : Str :=
    match previousIdentifier with
    | some prev =>
      match lookupTag m prev with
      | some t => getClosingTag t
      | none => []
    | none => []
  closingTag ++ (openingTagOf m id ++ sp.text)

/-- One iteration of `_process_block`'s span loop over the state
`(block_strings, block_string, previous_identifier)`: whitespace-only
spans are skipped; a style change closes and flushes the current fragment
and starts a new one; a repeated style appends a space plus the span's
text. -/
def processSpan (m : List (Style × Str)) (st : List Str × Str × Option Style)
    (sp : Span) : List Str × Str × Option Style :=
  if hasContent sp.text then
    if some (spanStyle sp) ≠ st.2.2 then
      (flushClosed st.1 (closePrev m st.2.2 st.2.1),
       startNewBlock sp (spanStyle sp) m, some (spanStyle sp))
    else
      (st.1, st.2.1 ++ ' ' :: sp.text, st.2.2)
  else st

/-- The tail of `_process_block`: close the last fragment if its
identifier is tagged, and flush it if non-empty. -/
def finalizeBlock (m : List (Style × Str)) (st : List Str × Str × Option Style) :
    List Str :=
  flushClosed st.1 (closePrev m st.2.2 st.2.1)

/-- The block's spans in document order (`for line in block["lines"]: for
span in line["spans"]`). -/
def allSpans (b : Block) : List Span := b.lines.flatMap (·.spans)

/-- Embeds `PDFParser._process_block`. -/
def processBlock (b : Block) (m : List (Style × Str)) : List Str :=
  finalizeBlock m ((allSpans b).foldl (processSpan m) ([], [], none))

/-- The block's non-whitespace-only spans, the ones visible to the
segmenter. -/
def visSpans (b : Block) : List Span :=
  (allSpans b).filter (fun sp => hasContent sp.text)

/-- Reference shape of the segmenter's output from the middle of a
fragment: `cur` is the open fragment accumulated for identifier `id`, and
the remaining (visible) spans either extend it or close it and open the
next one. -/
def fragsFrom (m : List (Style × Str)) : Style → Str → List Span → List Str
  | id, cur, [] => [closeIfTagged m id cur]
  | id, cur, sp :: rest =>
    if spanStyle sp = id then fragsFrom m id (cur ++ ' ' :: sp.text) rest
    else closeIfTagged m id cur ::
      fragsFrom m (spanStyle sp) (openingTagOf m (spanStyle sp) ++ sp.text) rest

/-- Reference shape of the segmenter's output for a whole visible-span
list. -/
def refFrags (m : List (Style × Str)) : List Span → List Str
  | [] => []
  | sp :: rest => fragsFrom m (spanStyle sp) (openingTagOf m (spanStyle sp) ++ sp.text) rest

/-- Modelled from the claim's words (continuation): the concatenated span
texts where a span equal in identifier to its predecessor contributes one
inserted space before its text. -/
def claimJoinFrom (id : Style) : List Span → Str
  | [] => []
  | sp :: rest =>
    (if spanStyle sp = id then ' ' :: sp.text else sp.text) ++
      claimJoinFrom (spanStyle sp) rest

/-- Modelled from the claim's words: the concatenation of the span texts
in order, each pair of consecutive same-identifier spans joined by exactly
one inserted space. -/
def claimJoin : List Span → Str
  | [] => []
  | sp :: rest => sp.text ++ claimJoinFrom (spanStyle sp) rest

/-- Tag stripping, reading the fragment left to right and deleting every
`<...>` group. -/
def removeTagsGo : Bool → Str → Str
  | _, [] => []
  | true, c :: rest => if c = '>' then removeTagsGo false rest else removeTagsGo true rest
  | false, c :: rest => if c = '<' then removeTagsGo true rest else c :: removeTagsGo false rest

/-- Strip all `<...>` tags from a string. -/
def removeTags (t : Str) : Str := removeTagsGo false t

/-- A string free of angle brackets (so tag stripping cannot eat it). -/
def NoAngles (t : Str) : Prop := '<' ∉ t ∧ '>' ∉ t

/-- A well-formed opening tag: `<` + non-empty bracket-free body + `>`,
the shape of every tag the Tag Assigner emits. -/
def WFTag (t : Str) : Prop :=
  ∃ inner : Str, t = '<' :: inner ++ ['>'] ∧ '<' ∉ inner ∧ '>' ∉ inner

lemma startNewBlock_eq (sp : Span) (id : Style) (m : List (Style × Str)) :
    startNewBlock sp id m = openingTagOf m id ++ sp.text := rfl

lemma closeIfTagged_eq (m : List (Style × Str)) (id : Style) (cur : Str) :
    closeIfTagged m id cur = cur ++ closeTagOf m id := by
  cases h : lookupTag m id <;> simp [closeIfTagged, closeTagOf, h]

lemma ne_nil_append_left (a b : Str) (h : a ≠ []) : a ++ b ≠ [] :=
  fun hc => h (List.append_eq_nil.mp hc).1

lemma ne_nil_append_right (a b : Str) (h : b ≠ []) : a ++ b ≠ [] :=
  fun hc => h (List.append_eq_nil.mp hc).2

lemma closeIfTagged_ne_nil (m : List (Style × Str)) (id : Style) (cur : Str)
    (h : cur ≠ []) : closeIfTagged m id cur ≠ [] := by
  cases ht : lookupTag m id with
  | none => simpa [closeIfTagged, ht] using h
  | some t =>
    rw [closeIfTagged, ht]
    exact ne_nil_append_left _ _ h

lemma hasContent_ne_nil (t : Str) (h : hasContent t = true) : t ≠ [] := by
  intro hnil
  subst hnil
  simp [hasContent] at h

lemma processSpan_invisible (m : List (Style × Str)) (st : List Str × Str × Option Style)
    (sp : Span) (h : hasContent sp.text = false) : processSpan m st sp = st := by
  simp [processSpan, h]

lemma foldl_processSpan_filter (m : List (Style × Str)) :
    ∀ (l : List Span) (st : List Str × Str × Option Style),
      l.foldl (processSpan m) st =
        (l.filter (fun sp => hasContent sp.text)).foldl (processSpan m) st
  | [], _ => rfl
  | sp :: rest, st => by
    rw [List.foldl_cons]
    cases hv : hasContent sp.text with
    | true =>
      rw [List.filter_cons_of_pos (by simpa using hv), List.foldl_cons]
      exact foldl_processSpan_filter m rest _
    | false =>
      rw [List.filter_cons_of_neg (by simp [hv]), processSpan_invisible m st sp hv]
      exact foldl_processSpan_filter m rest st

lemma foldl_processSpan_run (m : List (Style × Str)) :
    ∀ (l : List Span) (strings : List Str) (cur : Str) (id : Style),
      (∀ sp ∈ l, hasContent sp.text = true) → cur ≠ [] →
      finalizeBlock m (l.foldl (processSpan m) (strings, cur, some id)) =
        strings ++ fragsFrom m id cur l
  | [], strings, cur, id, _, hc => by
    rw [List.foldl_nil, finalizeBlock, fragsFrom]
    show flushClosed strings (closeIfTagged m id cur) = _
    rw [flushClosed, if_pos (closeIfTagged_ne_nil m id cur hc)]
  | sp :: rest, strings, cur, id, hvis, hc => by
    rw [List.foldl_cons]
    have hv := hvis sp (List.mem_cons_self _ _)
    have hvis' : ∀ s ∈ rest, hasContent s.text = true :=
      fun s hs => hvis s (List.mem_cons_of_mem _ hs)
    by_cases heq : spanStyle sp = id
    · have hstep : processSpan m (strings, cur, some id) sp =
          (strings, cur ++ ' ' :: sp.text, some id) := by
        simp [processSpan, hv, heq]
      rw [hstep,
        foldl_processSpan_run m rest strings _ id hvis' (ne_nil_append_left _ _ hc),
        fragsFrom, if_pos heq]
    · have hstep : processSpan m (strings, cur, some id) sp =
          (strings ++ [closeIfTagged m id cur],
            openingTagOf m (spanStyle sp) ++ sp.text, some (spanStyle sp)) := by
        simp [processSpan, hv, heq, flushClosed, closePrev, startNewBlock_eq,
          closeIfTagged_ne_nil m id cur hc]
      have htext : sp.text ≠ [] := hasContent_ne_nil _ hv
      rw [hstep,
        foldl_processSpan_run m rest _ _ (spanStyle sp) hvis'
          (ne_nil_append_right _ _ htext),
        fragsFrom, if_neg heq]
      simp [List.append_assoc]

lemma visSpans_content (b : Block) : ∀ s ∈ visSpans b, hasContent s.text = true := by
  intro s hs
  have hs' : s ∈ (allSpans b).filter (fun sp => hasContent sp.text) := hs
  simpa using (List.mem_filter.mp hs').2

lemma visSpans_subset (b : Block) : ∀ s ∈ visSpans b, s ∈ allSpans b := by
  intro s hs
  have hs' : s ∈ (allSpans b).filter (fun sp => hasContent sp.text) := hs
  exact (List.mem_filter.mp hs').1

/-- Characterization of `_process_block`: the output equals the reference
fragment list computed from the block's visible spans. -/
lemma processBlock_eq_refFrags (b : Block) (m : List (Style × Str)) :
    processBlock b m = refFrags m (visSpans b) := by
  rw [processBlock, foldl_processSpan_filter]
  show finalizeBlock m ((visSpans b).foldl (processSpan m) ([], [], none)) = _
  cases hv : visSpans b with
  | nil => simp [finalizeBlock, closePrev, flushClosed, refFrags]
  | cons sp rest =>
    have hvsp : hasContent sp.text = true :=
      visSpans_content b sp (by rw [hv]; exact List.mem_cons_self _ _)
    have hvis' : ∀ s ∈ rest, hasContent s.text = true := fun s hs =>
      visSpans_content b s (by rw [hv]; exact List.mem_cons_of_mem _ hs)
    rw [List.foldl_cons]
    have hstep : processSpan m ([], [], none) sp =
        ([], openingTagOf m (spanStyle sp) ++ sp.text, some (spanStyle sp)) := by
      simp [processSpan, hvsp, flushClosed, closePrev, startNewBlock_eq]
    rw [hstep,
      foldl_processSpan_run m rest [] _ (spanStyle sp) hvis'
        (ne_nil_append_right _ _ (hasContent_ne_nil _ hvsp)),
      refFrags]
    rfl

/-- Space-join of a run's span texts: one inserted space between
consecutive texts of the run (the segmenter's `" " + span['text']`
appends). -/
def spaceJoin : List Str → Str
  | [] => []
  | [t] => t
  | t :: u :: rest => t ++ ' ' :: spaceJoin (u :: rest)

/-- Run decomposition continuation: the current run has identifier `id`
and texts `acc` (in order); a same-style span extends it, a style change
closes it and opens a new run. -/
def runsGo (id : Style) (acc : List Str) : List Span → List (Style × List Str)
  | [] => [(id, acc)]
  | sp :: rest =>
    if spanStyle sp = id then runsGo id (acc ++ [sp.text]) rest
    else (id, acc) :: runsGo (spanStyle sp) [sp.text] rest

/-- The maximal runs of consecutive same-identifier spans of a span list:
each run is its identifier paired with its span texts in order. -/
def spanRuns : List Span → List (Style × List Str)
  | [] => []
  | sp :: rest => runsGo (spanStyle sp) [sp.text] rest

/-- The fragment the segmenter emits for one run: the run identifier's
opening tag (empty when untagged), the space-joined texts, and the
closing tag derived from the same identifier (empty when untagged). -/
def renderRun (m : List (Style × Str)) (r : Style × List Str) : Str :=
  openingTagOf m r.1 ++ (spaceJoin r.2 ++ closeTagOf m r.1)

lemma spaceJoin_append_single : ∀ (acc : List Str) (t : Str), acc ≠ [] →
    spaceJoin (acc ++ [t]) = spaceJoin acc ++ ' ' :: t
  | [], _, h => absurd rfl h
  | [_], _, _ => rfl
  | x :: y :: rest, t, _ => by
    show x ++ ' ' :: spaceJoin ((y :: rest) ++ [t]) =
      (x ++ ' ' :: spaceJoin (y :: rest)) ++ ' ' :: t
    rw [spaceJoin_append_single (y :: rest) t (by simp)]
    simp [List.append_assoc]

lemma fragsFrom_eq_runsGo (m : List (Style × Str)) :
    ∀ (l : List Span) (id : Style) (acc : List Str), acc ≠ [] →
      fragsFrom m id (openingTagOf m id ++ spaceJoin acc) l =
        (runsGo id acc l).map (renderRun m)
  | [], id, acc, _ => by
    rw [fragsFrom, runsGo, List.map_cons, List.map_nil, renderRun,
      closeIfTagged_eq, List.append_assoc]
  | sp :: rest, id, acc, hacc => by
    rw [fragsFrom, runsGo]
    by_cases heq : spanStyle sp = id
    · rw [if_pos heq, if_pos heq]
      have hjoin : (openingTagOf m id ++ spaceJoin acc) ++ ' ' :: sp.text =
          openingTagOf m id ++ spaceJoin (acc ++ [sp.text]) := by
        rw [spaceJoin_append_single acc sp.text hacc, List.append_assoc]
      rw [hjoin, fragsFrom_eq_runsGo m rest id (acc ++ [sp.text]) (by simp)]
    · rw [if_neg heq, if_neg heq, List.map_cons]
      congr 1
      · rw [closeIfTagged_eq, List.append_assoc, renderRun]
      · rw [show openingTagOf m (spanStyle sp) ++ sp.text =
              openingTagOf m (spanStyle sp) ++ spaceJoin [sp.text] from rfl,
          fragsFrom_eq_runsGo m rest (spanStyle sp) [sp.text] (by simp)]

lemma refFrags_eq_spanRuns (m : List (Style × Str)) (l : List Span) :
    refFrags m l = (spanRuns l).map (renderRun m) := by
  cases l with
  | nil => rfl
  | cons sp rest =>
    rw [refFrags, spanRuns,
      show openingTagOf m (spanStyle sp) ++ sp.text =
        openingTagOf m (spanStyle sp) ++ spaceJoin [sp.text] from rfl,
      fragsFrom_eq_runsGo m rest (spanStyle sp) [sp.text] (by simp)]

/-- C9: `_start_new_block`'s dead previous-identifier close contributes
nothing (its result is exactly opening tag + span text), and the
segmenter's output is exactly one fragment per maximal run of consecutive
same-identifier visible spans, each fragment being that run's opening tag
(empty when untagged) ++ its space-joined span texts ++ the closing tag
derived from the same identifier; hence every flushed fragment whose run
identifier is tagged begins with that opening tag and ends with the
matching closing tag, applied only at finalization. -/
theorem blockSegmenter_fragments_well_formed :
    (∀ (sp : Span) (id : Style) (m : List (Style × Str)),
        startNewBlock sp id m = openingTagOf m id ++ sp.text)
    ∧ (∀ (b : Block) (m : List (Style × Str)),
        processBlock b m = (spanRuns (visSpans b)).map (renderRun m))
    ∧ ∀ (b : Block) (m : List (Style × Str)) (r : Style × List Str) (t : Str),
        r ∈ spanRuns (visSpans b) → lookupTag m r.1 = some t →
        renderRun m r = t ++ (spaceJoin r.2 ++ getClosingTag t) := by
  refine ⟨startNewBlock_eq, ?_, ?_⟩
  · intro b m
    rw [processBlock_eq_refFrags, refFrags_eq_spanRuns]
  · intro b m r t _ ht
    simp [renderRun, openingTagOf, closeTagOf, ht]

/-- One-span block and its tag map for the C9 witness. -/
def wfB : Block := ⟨0, [⟨[⟨"A".toList, 12, "F".toList, 0⟩]⟩]⟩

/-- Tag map for the C9 witness. -/
def wfM : List (Style × Str) := [(⟨12, "F".toList, 0⟩, pTag)]

/-- Witness for C9: the single run of `wfB` is tagged `<p>`, and its
rendered fragment `<p>A</p>` starts with the opening tag and ends with
the derived closing tag. -/
theorem blockSegmenter_fragments_well_formed_witness :
    renderRun wfM (⟨12, "F".toList, 0⟩, ["A".toList]) =
      pTag ++ (spaceJoin ["A".toList] ++ getClosingTag pTag) :=
  blockSegmenter_fragments_well_formed.2.2 wfB wfM
    (⟨12, "F".toList, 0⟩, ["A".toList]) pTag (by decide) (by decide)

lemma noAngles_append (a b : Str) (ha : NoAngles a) (hb : NoAngles b) :
    NoAngles (a ++ b) := by
  constructor
  · intro h
    rcases List.mem_append.mp h with h | h
    · exact ha.1 h
    · exact hb.1 h
  · intro h
    rcases List.mem_append.mp h with h | h
    · exact ha.2 h
    · exact hb.2 h

lemma noAngles_cons_space (t : Str) (h : NoAngles t) : NoAngles (' ' :: t) := by
  constructor
  · intro hc
    rcases List.mem_cons.mp hc with hc | hc
    · exact absurd hc (by decide)
    · exact h.1 hc
  · intro hc
    rcases List.mem_cons.mp hc with hc | hc
    · exact absurd hc (by decide)
    · exact h.2 hc

lemma removeTagsGo_false_append (a b : Str) (h : '<' ∉ a) :
    removeTagsGo false (a ++ b) = a ++ removeTagsGo false b := by
  induction a with
  | nil => rfl
  | cons c cs ih =>
    have hc : ¬(c = '<') := fun hc => h (hc ▸ List.mem_cons_self c cs)
    rw [List.cons_append, removeTagsGo, if_neg hc, List.cons_append,
      ih (fun hm => h (List.mem_cons_of_mem _ hm))]

lemma removeTagsGo_true_append (a b : Str) (h : '>' ∉ a) :
    removeTagsGo true (a ++ '>' :: b) = removeTagsGo false b := by
  induction a with
  | nil =>
    rw [List.nil_append, removeTagsGo, if_pos rfl]
  | cons c cs ih =>
    have hc : ¬(c = '>') := fun hc => h (hc ▸ List.mem_cons_self c cs)
    rw [List.cons_append, removeTagsGo, if_neg hc,
      ih (fun hm => h (List.mem_cons_of_mem _ hm))]

lemma removeTags_no_angle (a : Str) (h : '<' ∉ a) : removeTags a = a := by
  have := removeTagsGo_false_append a [] h
  simpa [removeTags, removeTagsGo] using this

lemma takeWhile_until_gt (a b : Str) (h : '>' ∉ a) :
    (a ++ '>' :: b).takeWhile (· ≠ '>') = a := by
  induction a with
  | nil => simp
  | cons c cs ih =>
    have hc : c ≠ '>' := fun hc => h (hc ▸ List.mem_cons_self c cs)
    rw [List.cons_append, List.takeWhile_cons_of_pos (by simpa using hc),
      ih (fun hm => h (List.mem_cons_of_mem _ hm))]

lemma getClosingTag_wf (inner : Str) (hgt : '>' ∉ inner) :
    getClosingTag ('<' :: inner ++ ['>']) = '<' :: '/' :: inner ++ ['>'] := by
  have h1 : (('<' :: inner ++ ['>'] : Str).dropWhile (· ≠ '<')) = '<' :: inner ++ ['>'] := by
    simp [List.dropWhile_cons]
  have h2 : List.drop 1 (('<' :: inner ++ ['>'] : Str)) = inner ++ ['>'] := by simp
  rw [getClosingTag, h1, h2, takeWhile_until_gt inner [] hgt]

lemma lookupTag_wf (m : List (Style × Str)) (hm : ∀ e ∈ m, WFTag e.2)
    (id : Style) (t : Str) (ht : lookupTag m id = some t) : WFTag t := by
  rw [lookupTag] at ht
  obtain ⟨e, he, rfl⟩ := Option.map_eq_some'.mp ht
  exact hm e (List.mem_of_find?_eq_some he)

lemma removeTags_frag (m : List (Style × Str)) (hm : ∀ e ∈ m, WFTag e.2)
    (id : Style) (core : Str) (hcore : NoAngles core) :
    removeTags (closeIfTagged m id (openingTagOf m id ++ core)) = core := by
  cases ht : lookupTag m id with
  | none =>
    rw [closeIfTagged, ht, openingTagOf, ht]
    simpa using removeTags_no_angle core hcore.1
  | some t =>
    obtain ⟨inner, rfl, hlt, hgt⟩ := lookupTag_wf m hm id t ht
    simp only [closeIfTagged, openingTagOf, ht, Option.getD_some]
    rw [getClosingTag_wf inner hgt]
    have hshape : ((('<' :: inner ++ ['>']) : Str) ++ core) ++ ('<' :: '/' :: inner ++ ['>'])
        = '<' :: (inner ++ ('>' :: (core ++ ('<' :: ('/' :: (inner ++ ['>'])))))) := by
      simp
    rw [hshape, removeTags, removeTagsGo, if_pos rfl,
      removeTagsGo_true_append inner _ hgt,
      removeTagsGo_false_append core _ hcore.1,
      removeTagsGo, if_pos rfl,
      show ('/' :: (inner ++ ['>']) : Str) = ('/' :: inner) ++ '>' :: [] from by simp,
      removeTagsGo_true_append ('/' :: inner) []
        (fun hmem => hgt (by simpa using (List.mem_cons.mp hmem).resolve_left (by decide)))]
    simp [removeTagsGo]

lemma fragsFrom_strip (m : List (Style × Str)) (hm : ∀ e ∈ m, WFTag e.2) :
    ∀ (l : List Span) (id : Style) (core : Str),
      (∀ sp ∈ l, NoAngles sp.text) → NoAngles core →
      ((fragsFrom m id (openingTagOf m id ++ core) l).map removeTags).flatten =
        core ++ claimJoinFrom id l
  | [], id, core, _, hcore => by
    rw [fragsFrom, claimJoinFrom]
    simp [removeTags_frag m hm id core hcore]
  | sp :: rest, id, core, hl, hcore => by
    have hsp := hl sp (List.mem_cons_self _ _)
    have hl' : ∀ s ∈ rest, NoAngles s.text :=
      fun s hs => hl s (List.mem_cons_of_mem _ hs)
    rw [fragsFrom, claimJoinFrom]
    by_cases heq : spanStyle sp = id
    · rw [if_pos heq, if_pos heq, List.append_assoc,
        fragsFrom_strip m hm rest id (core ++ ' ' :: sp.text) hl'
          (noAngles_append _ _ hcore (noAngles_cons_space _ hsp)),
        heq]
      simp
    · rw [if_neg heq, if_neg heq, List.map_cons, List.flatten_cons,
        removeTags_frag m hm id core hcore,
        fragsFrom_strip m hm rest (spanStyle sp) sp.text hl' hsp]

/-- C1: for every block and well-formed tag map, the concatenation of the
segmenter's fragment texts with all tags stripped equals the concatenation
of the block's non-whitespace-only span texts in original order, with
exactly one space inserted between consecutive same-identifier spans;
whitespace-only spans neither start, extend, nor close a fragment. -/
theorem blockSegmenter_no_text_loss (b : Block) (m : List (Style × Str))
    (hm : ∀ e ∈ m, WFTag e.2) (hb : ∀ sp ∈ allSpans b, NoAngles sp.text) :
    ((processBlock b m).map removeTags).flatten = claimJoin (visSpans b) := by
  rw [processBlock_eq_refFrags]
  cases hv : visSpans b with
  | nil => rw [refFrags, claimJoin]; rfl
  | cons sp rest =>
    have hvsub : ∀ s ∈ visSpans b, NoAngles s.text :=
      fun s hs => hb s (visSpans_subset b s hs)
    have hsp : NoAngles sp.text :=
      hvsub sp (by rw [hv]; exact List.mem_cons_self _ _)
    have hrest : ∀ s ∈ rest, NoAngles s.text :=
      fun s hs => hvsub s (by rw [hv]; exact List.mem_cons_of_mem _ hs)
    rw [refFrags, claimJoin]
    exact fragsFrom_strip m hm rest (spanStyle sp) sp.text hrest hsp

/-- Block for the C1 witness: two same-style spans, a whitespace-only
span, and a differently styled span. -/
def wcB : Block :=
  ⟨0, [⟨[⟨"Big".toList, 14, "F".toList, 0⟩, ⟨"   ".toList, 9, "G".toList, 5⟩]⟩,
       ⟨[⟨"Hello".toList, 12, "F".toList, 0⟩, ⟨"world".toList, 12, "F".toList, 0⟩]⟩]⟩

/-- Tag map for the C1 witness. -/
def wcM : List (Style × Str) := [(⟨12, "F".toList, 0⟩, pTag), (⟨14, "F".toList, 0⟩, hTag 1)]

/-- Witness for C1: concrete no-text-loss equation on `wcB`. -/
theorem blockSegmenter_no_text_loss_witness :
    ((processBlock wcB wcM).map removeTags).flatten = claimJoin (visSpans wcB) :=
  blockSegmenter_no_text_loss wcB wcM
    (by
      intro e he
      rcases List.mem_cons.mp he with rfl | he'
      · exact ⟨['p'], by decide, by decide, by decide⟩
      · rcases List.mem_cons.mp he' with rfl | he''
        · exact ⟨['h', '1'], by decide, by decide, by decide⟩
        · exact absurd he'' (List.not_mem_nil e))
    (by
      intro sp hsp
      constructor
      · exact fun hc => by
          rcases List.mem_cons.mp hsp with rfl | h1
          · exact absurd hc (by decide)
          · rcases List.mem_cons.mp h1 with rfl | h2
            · exact absurd hc (by decide)
            · rcases List.mem_cons.mp h2 with rfl | h3
              · exact absurd hc (by decide)
              · rcases List.mem_cons.mp h3 with rfl | h4
                · exact absurd hc (by decide)
                · exact absurd h4 (List.not_mem_nil sp)
      · exact fun hc => by
          rcases List.mem_cons.mp hsp with rfl | h1
          · exact absurd hc (by decide)
          · rcases List.mem_cons.mp h1 with rfl | h2
            · exact absurd hc (by decide)
            · rcases List.mem_cons.mp h2 with rfl | h3
              · exact absurd hc (by decide)
              · rcases List.mem_cons.mp h3 with rfl | h4
                · exact absurd hc (by decide)
                · exact absurd h4 (List.not_mem_nil sp))

/-! ## Page Structurer (`HTMLToJsonConverter._process_page_content`) -/

/-- Embeds `re.match(r'<h\d>', item)`: the fragment starts with `<h`, one digit,
`>`. -/
def isHeadingFrag : Str → Bool
  | '<' :: 'h' :: d :: '>' :: _ => d.isDigit
  | _ => false

/-- Embeds `re.match(r'<p>', item)`: the fragment starts with `<p>`. -/
def isParaFrag : Str → Bool
  | '<' :: 'p' :: '>' :: _ => true
  | _ => false

/-- Embeds `re.sub(r'<\/?h\d>', '', item)`: delete every `<h\d>` / `</h\d>`
occurrence, scanning left to right and advancing one character on a
failed match. -/
def stripHTags : Str → Str
  | '<' :: '/' :: 'h' :: d :: '>' :: rest =>
    if d.isDigit then stripHTags rest
    else '<' :: stripHTags ('/' :: 'h' :: d :: '>' :: rest)
  | '<' :: 'h' :: d :: '>' :: rest =>
    if d.isDigit then stripHTags rest
    else '<' :: stripHTags ('h' :: d :: '>' :: rest)
  | c :: rest => c :: stripHTags rest
  | [] => []

/-- Embeds `re.sub(r'<\/?p>', '', item)`. -/
def stripPTags : Str → Str
  | '<' :: '/' :: 'p' :: '>' :: rest => stripPTags rest
  | '<' :: 'p' :: '>' :: rest => stripPTags rest
  | c :: rest => c :: stripPTags rest
  | [] => []

/-- Embeds `HTMLToJsonConverter._flatten_list`. -/
def flattenContent (c : List (List Str)) : List Str := c.flatMap id

/-- One iteration of `_process_page_content`'s fragment loop over the
state `(structured_page_data, current_section, title_set)`. -/
def pageStep (pageNo : ℕ) (st : List Section × Section × Bool) (item : Str) :
    List Section × Section × Bool :=
  if isHeadingFrag item then
    if st.2.1.title ≠ [] ∨ st.2.1.text ≠ [] then
      (st.1 ++ [st.2.1], ⟨stripHTags item, [], pageNo⟩, true)
    else
      (st.1, ⟨stripHTags item, st.2.1.text, st.2.1.page⟩, true)
  else if isParaFrag item then
    if st.2.2 = false then
      (st.1, ⟨stripPTags item, st.2.1.text, st.2.1.page⟩, true)
    else
      (st.1, ⟨st.2.1.title, st.2.1.text ++ stripPTags item ++ [' '], st.2.1.page⟩, st.2.2)
  else st

/-- Embeds `HTMLToJsonConverter._process_page_content`: split the page's
flattened fragment stream into sections at heading fragments, promoting a
leading paragraph to a title, and flush the final non-empty section. -/
def processPageContent (pd : PageData) : List Section :=
  let r := (flattenContent pd.content).foldl (pageStep pd.page) ([], ⟨[], [], pd.page⟩, false)
  if r.2.1.title ≠ [] ∨ r.2.1.text ≠ [] then r.1 ++ [r.2.1] else r.1

/-- Page catalog for the C2 failing input: a dominant style of size 1
(two occurrences) and ten singleton styles of sizes 2..11, so the pass
over the sorted distinct styles assigns `h1`..`h10` and the size-2 style
receives the two-digit tag `<h10>`. -/
def c2Styles : List Style :=
  [⟨1, "F".toList, 0⟩, ⟨2, "F".toList, 0⟩, ⟨3, "F".toList, 0⟩, ⟨4, "F".toList, 0⟩,
   ⟨5, "F".toList, 0⟩, ⟨6, "F".toList, 0⟩, ⟨7, "F".toList, 0⟩, ⟨8, "F".toList, 0⟩,
   ⟨9, "F".toList, 0⟩, ⟨10, "F".toList, 0⟩, ⟨11, "F".toList, 0⟩]

/-- Sorted font counts for the C2 failing input (dominant first). -/
def c2Counts : List (Style × ℕ) := [(⟨1, "F".toList, 0⟩, 2)]

/-- C2 fails on the code: the Tag Assigner can emit the two-digit tag
`<h10>` (here for the size-2 style of `c2Styles`), but the Page
Structurer's heading regex `<h\d>` matches only single-digit levels and
its paragraph regex does not match either, so a fragment tagged `<h10>`
falls through both branches and its text `Lost` is silently dropped from
the output sections. -/
theorem pageStructurer_drops_two_digit_heading :
    processPageContent ⟨0, [["<h10>Lost</h10>".toList]]⟩ = []
    ∧ lookupTag (createSizeTagMap c2Counts c2Styles) ⟨2, "F".toList, 0⟩ =
        some ('<' :: 'h' :: '1' :: '0' :: '>' :: []) := by
  constructor
  · decide
  · decide

/-! ## Style Catalog Builder and `process_document` (`PDFParser`) -/

/-- Embeds `font_counts[identifier] += 1` on an insertion-ordered count list. -/
def bump (s : Style) : List (Style × ℕ) → List (Style × ℕ)
  | [] => [(s, 1)]
  | (t, n) :: rest => if t = s then (t, n + 1) :: rest else (t, n) :: bump s rest

/-- The spans of a page's text-type blocks, in document order. -/
def textSpans (p : Page) : List Span :=
  (p.blocks.filter (fun b => b.btype = 0)).flatMap allSpans

/-- The `font_counts` defaultdict of `_extract_fonts`: occurrence counts
per granular identifier, in first-seen order. -/
def tally (l : List Span) : List (Style × ℕ) :=
  l.foldl (fun acc sp => bump (spanStyle sp) acc) []

/-- The `styles` dict of `_extract_fonts`: with granularity on, each
identifier's stored style equals its own triple, so the dict is the list
of distinct styles in first-seen order. -/
def distinctStyles (l : List Span) : List Style :=
  l.foldl (fun acc sp => if spanStyle sp ∈ acc then acc else acc ++ [spanStyle sp]) []

/-- Comparison for `sorted(font_counts.items(), key=lambda x: x[1],
reverse=True)`: strictly greater count first, ties stable. -/
def countGt (a b : Style × ℕ) : Bool := decide (b.2 < a.2)

/-- Embeds `PDFParser._extract_fonts` (granularity on): raises
`ValueError("No fonts found on page {n}")` when no span was seen,
otherwise returns the counts sorted by descending frequency plus the
style table. -/
def extractFonts (p : Page) : Except Str (List (Style × ℕ) × List Style) :=
  if tally (textSpans p) = [] then
    Except.error ("No fonts found on page ".toList ++ (Nat.repr p.number).toList)
  else
    Except.ok (isort countGt (tally (textSpans p)), distinctStyles (textSpans p))

/-- Embeds `PDFParser._extract_page_content`: process each text-type block and
keep the non-empty fragment lists. -/
def extractPageContent (p : Page) (m : List (Style × Str)) : List (List Str) :=
  (p.blocks.filter (fun b => b.btype = 0)).foldl
    (fun acc b => if processBlock b m ≠ [] then acc ++ [processBlock b m] else acc) []

/-- Embeds `PDFParser.process_document`: per page, extract fonts (possibly
raising), build the tag map, extract the content; the first failing page
aborts the whole run with no partial output. -/
def processDocument : List Page → Except Str (List PageData)
  | [] => Except.ok []
  | p :: rest =>
    match extractFonts p with
    | Except.error e => Except.error e
    | Except.ok (fc, styles) =>
      match processDocument rest with
      | Except.error e => Except.error e
      | Except.ok l =>
        Except.ok (⟨p.number, extractPageContent p (createSizeTagMap fc styles)⟩ :: l)

lemma bump_ne_nil (s : Style) (acc : List (Style × ℕ)) : bump s acc ≠ [] := by
  cases acc with
  | nil => simp [bump]
  | cons t rest =>
    obtain ⟨a, n⟩ := t
    rw [bump]
    split <;> simp

lemma foldl_bump_ne_nil :
    ∀ (l : List Span) (acc : List (Style × ℕ)), acc ≠ [] →
      l.foldl (fun a sp => bump (spanStyle sp) a) acc ≠ []
  | [], _, h => h
  | sp :: rest, acc, _ =>
    foldl_bump_ne_nil rest (bump (spanStyle sp) acc) (bump_ne_nil _ _)

lemma tally_nil_iff (l : List Span) : tally l = [] ↔ l = [] := by
  cases l with
  | nil => simp [tally]
  | cons sp rest =>
    constructor
    · intro h
      exact absurd h (foldl_bump_ne_nil rest _ (bump_ne_nil _ _))
    · intro h
      exact absurd h (by simp)

lemma extractFonts_error_iff (p : Page) :
    (∃ e, extractFonts p = Except.error e) ↔ textSpans p = [] := by
  rw [extractFonts]
  by_cases h : tally (textSpans p) = []
  · rw [if_pos h]
    simp [(tally_nil_iff _).mp h]
  · rw [if_neg h]
    constructor
    · rintro ⟨e, he⟩
      exact absurd he (by simp)
    · intro hts
      exact absurd ((tally_nil_iff _).mpr hts) h

/-- C8: `process_document` fails if and only if some page has no spans
inside its text-type blocks, and in the failure case no partial
per-page output is produced — the result is a single error for the whole
run (the `Except` value carries no page list). -/
theorem processDocument_error_iff (doc : List Page) :
    (∃ e, processDocument doc = Except.error e) ↔ ∃ p ∈ doc, textSpans p = [] := by
  induction doc with
  | nil => simp [processDocument]
  | cons p rest ih =>
    rw [processDocument]
    cases hf : extractFonts p with
    | error e =>
      have hts : textSpans p = [] := (extractFonts_error_iff p).mp ⟨e, hf⟩
      simp only []
      constructor
      · intro _
        exact ⟨p, List.mem_cons_self _ _, hts⟩
      · intro _
        exact ⟨e, rfl⟩
    | ok pr =>
      obtain ⟨fc, styles⟩ := pr
      have hts : ¬(textSpans p = []) := by
        intro h
        obtain ⟨e, he⟩ := (extractFonts_error_iff p).mpr h
        rw [hf] at he
        exact absurd he (by simp)
      cases hr : processDocument rest with
      | error e =>
        simp only []
        constructor
        · intro _
          obtain ⟨q, hq, hqs⟩ := ih.mp ⟨e, hr⟩
          exact ⟨q, List.mem_cons_of_mem _ hq, hqs⟩
        · intro _
          exact ⟨e, rfl⟩
      | ok l =>
        constructor
        · rintro ⟨e, he⟩
          exact absurd he (by simp)
        · rintro ⟨q, hq, hqs⟩
          rcases List.mem_cons.mp hq with rfl | hq'
          · exact absurd hqs hts
          · obtain ⟨e, he⟩ := ih.mpr ⟨q, hq', hqs⟩
            rw [hr] at he
            exact absurd he (by simp)

/-! ## Metadata Stamper (`MetadataEnhancedJsonConverter`) -/

/-- The first entry's title, or empty for an empty list
(`self.json_data[0].get("title", "")` guarded by the list check). -/
def firstTitle : List Section → Str
  | [] => []
  | s :: _ => s.title

/-- Embeds `os.path.basename` (POSIX): everything after the last `/`. -/
def basename (p : Str) : Str := (p.reverse.takeWhile (· ≠ '/')).reverse

/-- A section with the four metadata fields added by `enhance_json`. -/
structure EnhancedSection where
  title : Str
  text : Str
  page : ℕ
  file : Str
  product : Str
  document : Str
  link : Str
deriving DecidableEq

/-- Embeds `MetadataEnhancedJsonConverter.__init__` + `enhance_json`: stamp every
section with `file` = basename of the file path, `product` = `document` =
the first section's title (empty if none), and `link` = base URL ++ file
name. -/
def enhanceJson (data : List Section) (filePath baseUrl : Str) : List EnhancedSection :=
  data.map (fun s =>
    ⟨s.title, s.text, s.page, basename filePath, firstTitle data, firstTitle data,
      baseUrl ++ basename filePath⟩)

/-- C10: the Metadata Stamper is purely additive — the output has the same
length and order, every section keeps its title, text and page, and gains
exactly `file` = basename, `product` = `document` = first section's
title, `link` = base URL concatenated with the file name. -/
theorem metadataStamper_additive (data : List Section) (filePath baseUrl : Str) :
    (enhanceJson data filePath baseUrl).length = data.length
    ∧ ∀ (i : ℕ) (s : Section), data.get? i = some s →
        (enhanceJson data filePath baseUrl).get? i =
          some ⟨s.title, s.text, s.page, basename filePath, firstTitle data,
            firstTitle data, baseUrl ++ basename filePath⟩ := by
  refine ⟨by simp [enhanceJson], ?_⟩
  intro i s hs
  rw [List.get?_eq_getElem?] at hs ⊢
  simp [enhanceJson, List.getElem?_map, hs]

/-- Witness for C10: the stamped first section of a one-section list. -/
theorem metadataStamper_additive_witness :
    (enhanceJson [⟨"T".toList, "B".toList, 0⟩] "/d/f.pdf".toList "http://u/".toList).get? 0 =
      some ⟨"T".toList, "B".toList, 0, basename "/d/f.pdf".toList,
        firstTitle [⟨"T".toList, "B".toList, 0⟩],
        firstTitle [⟨"T".toList, "B".toList, 0⟩],
        "http://u/".toList ++ basename "/d/f.pdf".toList⟩ :=
  (metadataStamper_additive [⟨"T".toList, "B".toList, 0⟩]
    "/d/f.pdf".toList "http://u/".toList).2 0 ⟨"T".toList, "B".toList, 0⟩ rfl
